import Mathlib

/-!
Shallow embedding of the `Dataloader<T, R>` class (file `src/index.ts`).

The class owns five fields: `isFlushPending`, `resolveArr`, `rejectArr`,
`data` and `cachePromises`, a loader function `loaderFn`, and two methods,
`load` and `flushJobs`.  We embed the mutable instance as an explicit state
record, JavaScript promises as allocation identifiers (a counter `nextId`
models `new Promise` allocating a fresh reference), the `Map` as an
association list with `Map.get` / `Map.set` semantics, and the resolve and
reject callbacks of each promise as the id of the promise they settle.
`flushJobs` is split into its synchronous part (guard, snapshot, reset,
invocation of `loaderFn`) and the asynchronous settlement of the snapshot
(`then` / `catch` handlers), which runs once the loader outcome is known.
An event list records the order of the observable actions of the
synchronous part, and a promise store maps promise ids to their settlement
status, with the settle-once rule of JavaScript promises.
-/

namespace Dataloader

/-- State record of one Dataloader instance: the five private fields of the
class, plus the allocation counter that models promise reference identity. -/
structure DLState (T : Type) where
  isFlushPending : Bool
  resolveArr : List Nat
  rejectArr : List Nat
  data : List T
  cachePromises : List (T × Nat)
  nextId : Nat
deriving DecidableEq

/-- Fresh instance, as built by the constructor. -/
def initState (T : Type) : DLState T :=
  { isFlushPending := false, resolveArr := [], rejectArr := [], data := [],
    cachePromises := [], nextId := 0 }

/-- JavaScript Map.get on the association-list model. -/
def mapGet {T : Type} [DecidableEq T] : List (T × Nat) → T → Option Nat
  | [], _ => none
  | (k, v) :: rest, a => if k = a then some v else mapGet rest a

/-- JavaScript Map.set on the association-list model: replace in place if
the key is present, append otherwise. -/
def mapSet {T : Type} [DecidableEq T] : List (T × Nat) → T → Nat → List (T × Nat)
  | [], a, p => [(a, p)]
  | (k, v) :: rest, a, p =>
      if k = a then (k, p) :: rest else (k, v) :: mapSet rest a p

/-- Result of one `load(arg)` call: the returned promise, the instance state
after the call, and whether this call scheduled a flush (the body of the
`if (!this.isFlushPending)` branch ran). -/
structure LoadResult (T : Type) where
  promise : Nat
  state : DLState T
  scheduledFlush : Bool
deriving DecidableEq

/-- Method `load(arg)`: return the cached promise if `cachePromises` has the
key; otherwise allocate a fresh promise, push its resolve and reject
callbacks and the key, schedule a flush when none is pending, and register
the promise in `cachePromises`. -/
def load {T : Type} [DecidableEq T] (s : DLState T) (arg : T) : LoadResult T :=
  match mapGet s.cachePromises arg with
  | some p => { promise := p, state := s, scheduledFlush := false }
  | none =>
      let p := s.nextId
      { promise := p
        state :=
          { isFlushPending := true
            resolveArr := s.resolveArr ++ [p]
            rejectArr := s.rejectArr ++ [p]
            data := s.data ++ [arg]
            cachePromises := mapSet s.cachePromises arg p
            nextId := s.nextId + 1 }
        scheduledFlush := !s.isFlushPending }

/-- Observable actions of the synchronous part of `flushJobs`, in program
order: `resetState` stands for the three clearing statements (lines 73 to
75 of the source), `invokeLoader` for the call `this.loaderFn(currentData)`
on line 77. -/
inductive FlushEvent (T : Type) where
  | resetState : FlushEvent T
  | invokeLoader (keys : List T) : FlushEvent T
deriving DecidableEq

/-- Snapshot taken by `flushJobs` before resetting: the copied resolver and
rejector callback lists (as promise ids) and the copied pending key list. -/
structure Batch (T : Type) where
  resolvers : List Nat
  rejectors : List Nat
  keys : List T
deriving DecidableEq

/-- Result of running the synchronous part of `flushJobs`: the instance
state it leaves behind, the ordered events it performed, and the snapshot
handed to the loader (none on the empty-batch early return). -/
structure FlushResult (T : Type) where
  state : DLState T
  events : List (FlushEvent T)
  batch : Option (Batch T)
deriving DecidableEq

/-- Method `flushJobs`: early return clearing only the flag when `data` is
empty; otherwise snapshot the three lists, clear the map, the three lists
and the flag, and invoke the loader with the snapshotted key list. -/
def flushJobs {T : Type} (s : DLState T) : FlushResult T :=
  if s.data.length = 0 then
    { state := { s with isFlushPending := false }, events := [], batch := none }
  else
    { state :=
        { isFlushPending := false, resolveArr := [], rejectArr := [],
          data := [], cachePromises := [], nextId := s.nextId }
      events := [FlushEvent.resetState, FlushEvent.invokeLoader s.data]
      batch := some { resolvers := s.resolveArr, rejectors := s.rejectArr, keys := s.data } }

/-- Key lists the loader was invoked with, read off the event list. -/
def loaderCalls {T : Type} (f : FlushResult T) : List (List T) :=
  f.events.filterMap fun e =>
    match e with
    | FlushEvent.invokeLoader keys => some keys
    | FlushEvent.resetState => none

/-- Value carried by a rejected promise: either the failure value of the
loader, or the TypeError raised by calling an undefined array slot in the
`then` handler. -/
inductive JsError (E : Type) where
  | loaderErr (e : E) : JsError E
  | typeErrorUndefinedCall : JsError E
deriving DecidableEq

/-- Settlement status of one promise. -/
inductive PStatus (R E : Type) where
  | pending : PStatus R E
  | fulfilled (v : R) : PStatus R E
  | rejected (e : JsError E) : PStatus R E
deriving DecidableEq

/-- Map from promise ids to settlement status. -/
def PromiseStore (R E : Type) : Type := Nat → PStatus R E

/-- Store in which every promise is still pending. -/
def emptyStore (R E : Type) : PromiseStore R E := fun _ => PStatus.pending

/-- Settle one promise: JavaScript promises settle once, so a promise that
is already fulfilled or rejected is left unchanged. -/
def settle {R E : Type} (ps : PromiseStore R E) (p : Nat) (st : PStatus R E) :
    PromiseStore R E :=
  fun q =>
    if q = p then
      match ps p with
      | PStatus.pending => st
      | other => other
    else ps q

/-- The `then` handler, `rets.forEach((ret, index) => currentResolvers[index](ret))`:
walk the results in order, calling the resolver at the same index.  When the
results outnumber the resolvers, the slot read is `undefined` and calling it
throws a TypeError, which aborts the loop; the Boolean records whether that
happened. -/
def runThenHandler {R E : Type} (resolvers : List Nat) (rets : List R)
    (ps : PromiseStore R E) : PromiseStore R E × Bool :=
  match resolvers, rets with
  | _, [] => (ps, false)
  | [], _ :: _ => (ps, true)
  | p :: rest, r :: rrest =>
      runThenHandler rest rrest (settle ps p (PStatus.fulfilled r))

/-- The `catch` handler, `currentRejectors.forEach((rej) => rej(err))`:
reject every snapshotted promise with the same error. -/
def runCatchHandler {R E : Type} (rejectors : List Nat) (err : JsError E)
    (ps : PromiseStore R E) : PromiseStore R E :=
  rejectors.foldl (fun acc p => settle acc p (PStatus.rejected err)) ps

/-- Possible behaviours of `loaderFn(currentData)`, whose declared type is
`Promise<R[]> | R[]`: return an array synchronously, return a promise that
fulfills with an array, return a promise that rejects, or throw
synchronously before returning. -/
inductive LoaderBehavior (R E : Type) where
  | retSync (vals : List R) : LoaderBehavior R E
  | retAsyncOk (vals : List R) : LoaderBehavior R E
  | retAsyncErr (e : E) : LoaderBehavior R E
  | throwSync (e : E) : LoaderBehavior R E

/-- Final effect of one batch on the promise store, plus the error that
escaped `flushJobs` uncaught, if any. -/
structure SettleOutcome (R E : Type) where
  store : PromiseStore R E
  uncaught : Option E

/-- Success path shared by a synchronous array return and a fulfilled
promise: `Promise.resolve` normalises both, the `then` handler runs, and a
TypeError thrown inside it is caught by the `catch` handler downstream. -/
def settleOk {R E : Type} (b : Batch T) (vals : List R) (ps : PromiseStore R E) :
    SettleOutcome R E :=
  let r := runThenHandler b.resolvers vals ps
  if r.2 then
    { store := runCatchHandler b.rejectors JsError.typeErrorUndefinedCall r.1,
      uncaught := none }
  else
    { store := r.1, uncaught := none }

/-- Settlement of one snapshotted batch under a given loader behaviour,
following `Promise.resolve(this.loaderFn(currentData)).then(...).catch(...)`:
a synchronous throw happens while evaluating the argument of
`Promise.resolve`, so neither handler is ever attached and the error
escapes `flushJobs` with every snapshotted promise left pending. -/
def settleBatch {T R E : Type} (b : Batch T) (beh : LoaderBehavior R E)
    (ps : PromiseStore R E) : SettleOutcome R E :=
  match beh with
  | LoaderBehavior.retSync vals => settleOk b vals ps
  | LoaderBehavior.retAsyncOk vals => settleOk b vals ps
  | LoaderBehavior.retAsyncErr e =>
      { store := runCatchHandler b.rejectors (JsError.loaderErr e) ps, uncaught := none }
  | LoaderBehavior.throwSync e => { store := ps, uncaught := some e }

/-- Fold a sequence of `load` calls over a state, keeping only the state. -/
def loadAll {T : Type} [DecidableEq T] (s : DLState T) (args : List T) : DLState T :=
  args.foldl (fun acc a => (load acc a).state) s

/-- Run a sequence of `load` calls, collecting the promise returned to each
caller together with the final state. -/
def runBatch {T : Type} [DecidableEq T] (s : DLState T) :
    List T → List Nat × DLState T
  | [] => ([], s)
  | a :: rest =>
      let r := load s a
      let q := runBatch r.state rest
      (r.promise :: q.1, q.2)

/-- Modelled from the spec (I1): the deduplicated key list, keeping each
distinct key once, at its first occurrence.  Used to compare the key list
the embedded code builds against the wording of the spec. -/
def dedupFirstSeen {T : Type} [DecidableEq T] (ks : List T) : List T :=
  ks.foldl (fun acc k => if k ∈ acc then acc else acc ++ [k]) []

/-- Index of the first occurrence of a key in a list (length when absent). -/
def firstIdx {T : Type} [DecidableEq T] : List T → T → Nat
  | [], _ => 0
  | x :: xs, k => if x = k then 0 else firstIdx xs k + 1

/-- Scheduler-level operation on one instance: a caller invokes load with a
key, or the scheduler runs one queued flushJobs callback. -/
inductive Op (T : Type) where
  | load (k : T) : Op T
  | flush : Op T
deriving DecidableEq

/-- Instance state paired with the number of flushJobs callbacks currently
sitting in the microtask queue (queued by queueMicrotask or the
Promise.resolve fallback, consumed when the scheduler runs them). -/
structure Sys (T : Type) where
  st : DLState T
  pendingFlushes : Nat
deriving DecidableEq

/-- Fresh instance with an empty microtask queue. -/
def initSys (T : Type) : Sys T := { st := initState T, pendingFlushes := 0 }

/-- Run a list of operations.  A load queues one flushJobs callback exactly
when the call took the scheduling branch; a flush consumes one queued
callback, and a trace that flushes with an empty queue is invalid (none),
since the scheduler runs flushJobs once per queued callback. -/
def runOps {T : Type} [DecidableEq T] : Sys T → List (Op T) → Option (Sys T)
  | sys, [] => some sys
  | sys, Op.load k :: rest =>
      let r := load sys.st k
      runOps
        { st := r.state
          pendingFlushes := sys.pendingFlushes + (if r.scheduledFlush then 1 else 0) } rest
  | sys, Op.flush :: rest =>
      if sys.pendingFlushes = 0 then none
      else
        runOps
          { st := (flushJobs sys.st).state
            pendingFlushes := sys.pendingFlushes - 1 } rest

example : (loadAll (initState ℕ) [1, 1, 2]).data = [1, 2] := by decide

example : dedupFirstSeen [1, 1, 2] = [1, 2] := by decide

example : (runBatch (initState ℕ) [1, 1, 2]).1 = [0, 0, 1] := by decide

example :
    loaderCalls (flushJobs (loadAll (initState ℕ) [1, 1, 2])) = [[1, 2]] := by decide

/-! Helper lemmas about the map model, the deduplicated key list, and the
first-occurrence index. -/

theorem mapGet_mapSet {T : Type} [DecidableEq T] (m : List (T × Nat)) (a b : T) (p : Nat) :
    mapGet (mapSet m a p) b = if b = a then some p else mapGet m b := by
  induction m with
  | nil =>
      by_cases h : b = a
      · subst h; simp [mapGet, mapSet]
      · have h' : ¬ a = b := fun hh => h hh.symm
        simp [mapGet, mapSet, h, h']
  | cons kv rest ih =>
      obtain ⟨k, v⟩ := kv
      by_cases hk : k = a
      · subst hk
        by_cases hb : b = k
        · subst hb; simp [mapGet, mapSet]
        · have hb' : ¬ k = b := fun hh => hb hh.symm
          simp [mapGet, mapSet, hb, hb']
      · by_cases hb : k = b
        · subst hb
          have hka : ¬ k = a := hk
          simp [mapGet, mapSet, hk, hka, ih]
        · simp [mapGet, mapSet, hk, hb, ih]

theorem firstIdx_append_left {T : Type} [DecidableEq T] (l l₂ : List T) (a : T)
    (h : a ∈ l) : firstIdx (l ++ l₂) a = firstIdx l a := by
  induction l with
  | nil => cases h
  | cons x xs ih =>
      by_cases hx : x = a
      · simp [firstIdx, hx]
      · have hmem : a ∈ xs := by
          rcases List.mem_cons.mp h with h1 | h1
          · exact absurd h1.symm hx
          · exact h1
        simp [firstIdx, hx, ih hmem]

theorem firstIdx_append_right {T : Type} [DecidableEq T] (l l₂ : List T) (a : T)
    (h : a ∉ l) : firstIdx (l ++ l₂) a = l.length + firstIdx l₂ a := by
  induction l with
  | nil => simp [firstIdx]
  | cons x xs ih =>
      have hx : ¬ x = a := fun hh => h (hh ▸ List.mem_cons_self x xs)
      have hmem : a ∉ xs := fun hh => h (List.mem_cons_of_mem x hh)
      simp [firstIdx, hx, ih hmem]
      omega

theorem firstIdx_lt_length {T : Type} [DecidableEq T] (l : List T) (a : T)
    (h : a ∈ l) : firstIdx l a < l.length := by
  induction l with
  | nil => cases h
  | cons x xs ih =>
      by_cases hx : x = a
      · simp [firstIdx, hx]
      · have hmem : a ∈ xs := by
          rcases List.mem_cons.mp h with h1 | h1
          · exact absurd h1.symm hx
          · exact h1
        simp only [firstIdx, hx, if_false, List.length_cons]
        exact Nat.succ_lt_succ (ih hmem)

theorem dedupFirstSeen_append {T : Type} [DecidableEq T] (ks : List T) (k : T) :
    dedupFirstSeen (ks ++ [k]) =
      if k ∈ dedupFirstSeen ks then dedupFirstSeen ks
      else dedupFirstSeen ks ++ [k] := by
  simp [dedupFirstSeen, List.foldl_append]

theorem mem_dedupFirstSeen {T : Type} [DecidableEq T] (ks : List T) :
    ∀ a : T, a ∈ dedupFirstSeen ks ↔ a ∈ ks := by
  induction ks using List.reverseRecOn with
  | nil => intro a; simp [dedupFirstSeen]
  | append_singleton xs x ih =>
      intro a
      rw [dedupFirstSeen_append]
      by_cases hx : x ∈ dedupFirstSeen xs
      · have hxs : x ∈ xs := (ih x).mp hx
        simp only [hx, if_true, List.mem_append, List.mem_singleton, ih a]
        constructor
        · exact Or.inl
        · rintro (h1 | rfl)
          · exact h1
          · exact hxs
      · simp [hx, ih a]

theorem nodup_dedupFirstSeen {T : Type} [DecidableEq T] (ks : List T) :
    (dedupFirstSeen ks).Nodup := by
  induction ks using List.reverseRecOn with
  | nil => simp [dedupFirstSeen]
  | append_singleton xs x ih =>
      rw [dedupFirstSeen_append]
      by_cases hx : x ∈ dedupFirstSeen xs
      · simpa [hx] using ih
      · simp [hx, List.nodup_append, ih, List.disjoint_singleton]

theorem dedupFirstSeen_ne_nil {T : Type} [DecidableEq T] (ks : List T)
    (h : ks ≠ []) : dedupFirstSeen ks ≠ [] := by
  match ks, h with
  | k :: rest, _ =>
      exact List.ne_nil_of_mem ((mem_dedupFirstSeen (k :: rest) k).mpr
        (List.mem_cons_self k rest))

theorem pairwise_firstIdx_dedupFirstSeen {T : Type} [DecidableEq T] (ks : List T) :
    List.Pairwise (fun a b => firstIdx ks a < firstIdx ks b) (dedupFirstSeen ks) := by
  induction ks using List.reverseRecOn with
  | nil => simp [dedupFirstSeen]
  | append_singleton xs x ih =>
      rw [dedupFirstSeen_append]
      by_cases hx : x ∈ dedupFirstSeen xs
      · simp only [hx, if_true]
        refine ih.imp_of_mem ?_
        intro a b ha hb hab
        have haxs : a ∈ xs := (mem_dedupFirstSeen xs a).mp ha
        have hbxs : b ∈ xs := (mem_dedupFirstSeen xs b).mp hb
        rw [firstIdx_append_left xs [x] a haxs, firstIdx_append_left xs [x] b hbxs]
        exact hab
      · simp only [hx, if_false]
        rw [List.pairwise_append]
        refine ⟨?_, List.pairwise_singleton _ _, ?_⟩
        · refine ih.imp_of_mem ?_
          intro a b ha hb hab
          have haxs : a ∈ xs := (mem_dedupFirstSeen xs a).mp ha
          have hbxs : b ∈ xs := (mem_dedupFirstSeen xs b).mp hb
          rw [firstIdx_append_left xs [x] a haxs, firstIdx_append_left xs [x] b hbxs]
          exact hab
        · intro a ha b hb
          have hb' : b = x := List.mem_singleton.mp hb
          rw [hb']
          have haxs : a ∈ xs := (mem_dedupFirstSeen xs a).mp ha
          have hxxs : x ∉ xs := fun hh => hx ((mem_dedupFirstSeen xs x).mpr hh)
          rw [firstIdx_append_left xs [x] a haxs, firstIdx_append_right xs [x] x hxxs]
          have : firstIdx [x] x = 0 := by simp [firstIdx]
          rw [this]
          simpa using firstIdx_lt_length xs a haxs

/-! Lemmas about the state reached by a sequence of load calls. -/

theorem load_preserves_cached {T : Type} [DecidableEq T] (s : DLState T) (k a : T)
    (p : Nat) (h : mapGet s.cachePromises k = some p) :
    mapGet (load s a).state.cachePromises k = some p := by
  rcases hm : mapGet s.cachePromises a with _ | q
  · by_cases hka : k = a
    · rw [hka] at h; rw [h] at hm; cases hm
    · simp only [load, hm, mapGet_mapSet, hka, if_false]
      exact h
  · simp only [load, hm]
    exact h

theorem loadAll_preserves_cached {T : Type} [DecidableEq T] (ms : List T) :
    ∀ (s : DLState T) (k : T) (p : Nat), mapGet s.cachePromises k = some p →
      mapGet (loadAll s ms).cachePromises k = some p := by
  induction ms with
  | nil => intro s k p h; exact h
  | cons a rest ih =>
      intro s k p h
      have h1 := load_preserves_cached s k a p h
      simpa [loadAll, List.foldl_cons] using ih (load s a).state k p h1

theorem load_self_cached {T : Type} [DecidableEq T] (s : DLState T) (k : T) :
    mapGet (load s k).state.cachePromises k = some (load s k).promise := by
  rcases hm : mapGet s.cachePromises k with _ | q
  · simp [load, hm, mapGet_mapSet]
  · simp [load, hm]

theorem loadAll_append_singleton {T : Type} [DecidableEq T] (s : DLState T)
    (xs : List T) (x : T) :
    loadAll s (xs ++ [x]) = (load (loadAll s xs) x).state := by
  simp [loadAll, List.foldl_append]

/-- Characterisation of the state reached from a fresh instance by a
sequence of load calls: the pending key list is the deduplicated key list,
the resolver and rejector lists hold the promise ids zero up to its length
in order, the allocation counter equals its length, a flush is pending as
soon as one call was made, and the cache maps each key of the batch to the
promise allocated at the first occurrence of that key. -/
theorem loadAll_initState_spec {T : Type} [DecidableEq T] (ks : List T) :
    (loadAll (initState T) ks).data = dedupFirstSeen ks ∧
    (loadAll (initState T) ks).resolveArr = List.range (dedupFirstSeen ks).length ∧
    (loadAll (initState T) ks).rejectArr = List.range (dedupFirstSeen ks).length ∧
    (loadAll (initState T) ks).nextId = (dedupFirstSeen ks).length ∧
    (loadAll (initState T) ks).isFlushPending = !ks.isEmpty ∧
    ∀ k, mapGet (loadAll (initState T) ks).cachePromises k =
      if k ∈ dedupFirstSeen ks then some (firstIdx (dedupFirstSeen ks) k) else none := by
  induction ks using List.reverseRecOn with
  | nil =>
      refine ⟨rfl, rfl, rfl, rfl, rfl, fun k => ?_⟩
      simp [loadAll, initState, mapGet, dedupFirstSeen]
  | append_singleton xs x ih =>
      obtain ⟨h1, h2, h3, h4, h5, h6⟩ := ih
      rw [loadAll_append_singleton]
      by_cases hx : x ∈ dedupFirstSeen xs
      · have hxs : x ∈ xs := (mem_dedupFirstSeen xs x).mp hx
        have hxs' : xs ≠ [] := List.ne_nil_of_mem hxs
        have hcache : mapGet (loadAll (initState T) xs).cachePromises x =
            some (firstIdx (dedupFirstSeen xs) x) := by
          rw [h6 x]; simp [hx]
        have hstate : (load (loadAll (initState T) xs) x).state =
            loadAll (initState T) xs := by
          simp [load, hcache]
        rw [hstate, dedupFirstSeen_append]
        simp only [hx, if_true]
        refine ⟨h1, h2, h3, h4, ?_, h6⟩
        rw [h5]
        have hxe : xs.isEmpty = false := by
          cases xs with
          | nil => exact absurd rfl hxs'
          | cons y ys => rfl
        simp [hxe]
      · have hcache : mapGet (loadAll (initState T) xs).cachePromises x = none := by
          rw [h6 x]; simp [hx]
        have hstate : (load (loadAll (initState T) xs) x).state =
            { isFlushPending := true
              resolveArr := (loadAll (initState T) xs).resolveArr ++
                [(loadAll (initState T) xs).nextId]
              rejectArr := (loadAll (initState T) xs).rejectArr ++
                [(loadAll (initState T) xs).nextId]
              data := (loadAll (initState T) xs).data ++ [x]
              cachePromises := mapSet (loadAll (initState T) xs).cachePromises x
                (loadAll (initState T) xs).nextId
              nextId := (loadAll (initState T) xs).nextId + 1 } := by
          simp [load, hcache]
        rw [hstate, dedupFirstSeen_append]
        simp only [hx, if_false]
        have hlen : (dedupFirstSeen xs ++ [x]).length = (dedupFirstSeen xs).length + 1 := by
          simp
        refine ⟨by rw [h1], ?_, ?_, ?_, by simp, ?_⟩
        · rw [h2, h4, hlen, List.range_succ]
        · rw [h3, h4, hlen, List.range_succ]
        · rw [h4, hlen]
        · intro k
          rw [mapGet_mapSet, h4]
          by_cases hk : k = x
          · rw [hk]
            have hxd : x ∉ dedupFirstSeen xs := hx
            have : firstIdx (dedupFirstSeen xs ++ [x]) x =
                (dedupFirstSeen xs).length + firstIdx [x] x :=
              firstIdx_append_right _ _ _ hxd
            simp only [if_pos rfl, List.mem_append, List.mem_singleton, or_true, if_true]
            rw [this]
            simp [firstIdx]
          · rw [if_neg hk, h6 k]
            by_cases hkd : k ∈ dedupFirstSeen xs
            · have hmem : k ∈ dedupFirstSeen xs ++ [x] := List.mem_append.mpr (Or.inl hkd)
              rw [if_pos hkd, if_pos hmem, firstIdx_append_left _ _ _ hkd]
            · have hmem : k ∉ dedupFirstSeen xs ++ [x] := by
                intro hc
                rcases List.mem_append.mp hc with hc1 | hc1
                · exact hkd hc1
                · exact hk (List.mem_singleton.mp hc1)
              rw [if_neg hkd, if_neg hmem]

theorem runBatch_snd {T : Type} [DecidableEq T] (ks : List T) :
    ∀ s : DLState T, (runBatch s ks).2 = loadAll s ks := by
  induction ks with
  | nil => intro s; rfl
  | cons a rest ih =>
      intro s
      simp [runBatch, loadAll, List.foldl_cons, ih (load s a).state]

theorem runBatch_append {T : Type} [DecidableEq T] (xs ys : List T) :
    ∀ s : DLState T, (runBatch s (xs ++ ys)).1 =
      (runBatch s xs).1 ++ (runBatch (loadAll s xs) ys).1 := by
  induction xs with
  | nil => intro s; simp [runBatch, loadAll]
  | cons a rest ih =>
      intro s
      simp [runBatch, loadAll, List.foldl_cons, ih (load s a).state]

/-- Every load call in a batch from a fresh instance receives the promise
allocated at the first occurrence of its key: the id equals the position of
the key in the final deduplicated key list. -/
theorem runBatch_initState_promises {T : Type} [DecidableEq T] (ks : List T) :
    (runBatch (initState T) ks).1 =
      ks.map (fun k => firstIdx (dedupFirstSeen ks) k) := by
  induction ks using List.reverseRecOn with
  | nil => rfl
  | append_singleton xs x ih =>
      obtain ⟨h1, h2, h3, h4, h5, h6⟩ := loadAll_initState_spec (T := T) xs
      rw [runBatch_append, ih, dedupFirstSeen_append, List.map_append]
      by_cases hx : x ∈ dedupFirstSeen xs
      · have hcache : mapGet (loadAll (initState T) xs).cachePromises x =
            some (firstIdx (dedupFirstSeen xs) x) := by
          rw [h6 x]; simp [hx]
        simp only [hx, if_true]
        refine congrArg₂ (· ++ ·) rfl ?_
        simp [runBatch, load, hcache]
      · have hcache : mapGet (loadAll (initState T) xs).cachePromises x = none := by
          rw [h6 x]; simp [hx]
        have hxd : x ∉ dedupFirstSeen xs := hx
        simp only [hx, if_false]
        refine congrArg₂ (· ++ ·) ?_ ?_
        · refine List.map_congr_left ?_
          intro a ha
          have had : a ∈ dedupFirstSeen xs := (mem_dedupFirstSeen xs a).mpr ha
          rw [firstIdx_append_left _ _ _ had]
        · have : firstIdx (dedupFirstSeen xs ++ [x]) x =
              (dedupFirstSeen xs).length + firstIdx [x] x :=
            firstIdx_append_right _ _ _ hxd
          simp only [runBatch, load, hcache, List.map_cons, List.map_nil]
          rw [this, h4]
          simp [firstIdx]

/-! Lemmas about promise settlement: the settle-once store update and the
then and catch handlers. -/

theorem settle_other {R E : Type} (ps : PromiseStore R E) (p q : Nat)
    (st : PStatus R E) (h : q ≠ p) : settle ps p st q = ps q := by
  simp [settle, h]

theorem settle_self_pending {R E : Type} (ps : PromiseStore R E) (p : Nat)
    (st : PStatus R E) (h : ps p = PStatus.pending) : settle ps p st p = st := by
  simp [settle, h]

theorem settle_preserve {R E : Type} (ps : PromiseStore R E) (p q : Nat)
    (st : PStatus R E) (h : ps q ≠ PStatus.pending) : settle ps p st q = ps q := by
  by_cases hq : q = p
  · subst hq
    rcases hs : ps q with _ | v | e
    · exact absurd hs h
    · simp [settle, hs]
    · simp [settle, hs]
  · exact settle_other ps p q st hq

theorem runThenHandler_untouched {R E : Type} (rets : List R) :
    ∀ (resolvers : List Nat) (ps : PromiseStore R E) (q : Nat), q ∉ resolvers →
      (runThenHandler resolvers rets ps).1 q = ps q := by
  induction rets with
  | nil => intro resolvers ps q _; cases resolvers <;> rfl
  | cons r rrest ih =>
      intro resolvers ps q hq
      cases resolvers with
      | nil => rfl
      | cons p rest =>
          have hqp : q ≠ p := fun hh => hq (hh ▸ List.mem_cons_self p rest)
          have hqr : q ∉ rest := fun hh => hq (List.mem_cons_of_mem p hh)
          simp only [runThenHandler]
          rw [ih rest _ q hqr, settle_other _ _ _ _ hqp]

theorem runThenHandler_snd {R E : Type} (rets : List R) :
    ∀ (resolvers : List Nat) (ps : PromiseStore R E),
      (runThenHandler resolvers rets ps).2 = decide (resolvers.length < rets.length) := by
  induction rets with
  | nil =>
      intro resolvers ps
      cases resolvers <;> simp [runThenHandler]
  | cons r rrest ih =>
      intro resolvers ps
      cases resolvers with
      | nil => simp [runThenHandler]
      | cons p rest =>
          simp only [runThenHandler, List.length_cons]
          rw [ih rest]
          simp

theorem runThenHandler_fulfilled {R E : Type} (rets : List R) :
    ∀ (resolvers : List Nat) (ps : PromiseStore R E), resolvers.Nodup →
      (∀ q ∈ resolvers, ps q = PStatus.pending) →
      ∀ (i p : Nat) (v : R), resolvers.get? i = some p → rets.get? i = some v →
        (runThenHandler resolvers rets ps).1 p = PStatus.fulfilled v := by
  induction rets with
  | nil => intro _ _ _ _ i p v _ hv; cases i <;> cases hv
  | cons r rrest ih =>
      intro resolvers ps hnodup hpend i p v hp hv
      cases resolvers with
      | nil => cases i <;> cases hp
      | cons p0 rest =>
          have hp0 : p0 ∉ rest := (List.nodup_cons.mp hnodup).1
          cases i with
          | zero =>
              have hp' : p0 = p := by simpa using hp
              have hv' : r = v := by simpa using hv
              subst hp'; subst hv'
              simp only [runThenHandler]
              rw [runThenHandler_untouched rrest rest _ p0 hp0]
              exact settle_self_pending ps p0 _ (hpend p0 (List.mem_cons_self p0 rest))
          | succ j =>
              simp only [runThenHandler]
              refine ih rest _ (List.nodup_cons.mp hnodup).2 ?_ j p v hp hv
              intro q hq
              have hqp0 : q ≠ p0 := fun hh => hp0 (hh ▸ hq)
              rw [settle_other _ _ _ _ hqp0]
              exact hpend q (List.mem_cons_of_mem p0 hq)

theorem runThenHandler_stalled {R E : Type} (rets : List R) :
    ∀ (resolvers : List Nat) (ps : PromiseStore R E), resolvers.Nodup →
      ∀ (i p : Nat), rets.length ≤ i → resolvers.get? i = some p →
        (runThenHandler resolvers rets ps).1 p = ps p := by
  induction rets with
  | nil =>
      intro resolvers ps _ i p _ _
      cases resolvers <;> rfl
  | cons r rrest ih =>
      intro resolvers ps hnodup i p hlen hp
      cases resolvers with
      | nil => cases i <;> cases hp
      | cons p0 rest =>
          cases i with
          | zero => exact absurd hlen (by simp)
          | succ j =>
              have hp0 : p0 ∉ rest := (List.nodup_cons.mp hnodup).1
              have hpmem : p ∈ rest := List.get?_mem hp
              have hpp0 : p ≠ p0 := fun hh => hp0 (hh ▸ hpmem)
              simp only [runThenHandler]
              rw [ih rest _ (List.nodup_cons.mp hnodup).2 j p (by simpa using hlen) hp,
                settle_other _ _ _ _ hpp0]

theorem runCatchHandler_cons {R E : Type} (r : Nat) (rest : List Nat)
    (err : JsError E) (ps : PromiseStore R E) :
    runCatchHandler (r :: rest) err ps =
      runCatchHandler rest err (settle ps r (PStatus.rejected err)) := rfl

theorem runCatchHandler_preserve {R E : Type} (rejectors : List Nat) :
    ∀ (ps : PromiseStore R E) (err : JsError E) (q : Nat), ps q ≠ PStatus.pending →
      runCatchHandler rejectors err ps q = ps q := by
  induction rejectors with
  | nil => intro ps err q _; rfl
  | cons r rest ih =>
      intro ps err q hq
      simp only [runCatchHandler, List.foldl_cons] at *
      rw [ih _ err q (by rw [settle_preserve ps r q _ hq]; exact hq),
        settle_preserve ps r q _ hq]

theorem runCatchHandler_untouched {R E : Type} (rejectors : List Nat) :
    ∀ (ps : PromiseStore R E) (err : JsError E) (q : Nat), q ∉ rejectors →
      runCatchHandler rejectors err ps q = ps q := by
  induction rejectors with
  | nil => intro ps err q _; rfl
  | cons r rest ih =>
      intro ps err q hq
      have hqr : q ≠ r := fun hh => hq (hh ▸ List.mem_cons_self r rest)
      have hqrest : q ∉ rest := fun hh => hq (List.mem_cons_of_mem r hh)
      simp only [runCatchHandler, List.foldl_cons] at *
      rw [ih _ err q hqrest, settle_other _ _ _ _ hqr]

theorem runCatchHandler_rejects {R E : Type} (rejectors : List Nat) :
    ∀ (ps : PromiseStore R E) (err : JsError E), rejectors.Nodup →
      (∀ q ∈ rejectors, ps q = PStatus.pending) →
      ∀ p ∈ rejectors, runCatchHandler rejectors err ps p = PStatus.rejected err := by
  induction rejectors with
  | nil => intro ps err _ _ p hp; cases hp
  | cons r rest ih =>
      intro ps err hnodup hpend p hp
      have hr : r ∉ rest := (List.nodup_cons.mp hnodup).1
      rw [runCatchHandler_cons]
      rcases List.mem_cons.mp hp with hpr | hprest
      · subst hpr
        have hset : settle ps p (PStatus.rejected err) p = PStatus.rejected err :=
          settle_self_pending ps p _ (hpend p (List.mem_cons_self p rest))
        have : settle ps p (PStatus.rejected err) p ≠ PStatus.pending := by
          rw [hset]; intro hc; cases hc
        rw [runCatchHandler_preserve rest _ err p this, hset]
      · refine ih _ err (List.nodup_cons.mp hnodup).2 ?_ p hprest
        intro q hq
        have hqr : q ≠ r := fun hh => hr (hh ▸ hq)
        rw [settle_other _ _ _ _ hqr]
        exact hpend q (List.mem_cons_of_mem r hq)

/-! Remaining shared helper lemmas. -/

theorem load_cached_eq {T : Type} [DecidableEq T] (s : DLState T) (k : T) (p : Nat)
    (h : mapGet s.cachePromises k = some p) :
    load s k = { promise := p, state := s, scheduledFlush := false } := by
  simp [load, h]

theorem flushJobs_clears_flag {T : Type} (s : DLState T) :
    (flushJobs s).state.isFlushPending = false := by
  by_cases h : s.data.length = 0 <;> simp [flushJobs, h]

theorem flushJobs_batch_initState {T : Type} [DecidableEq T] (ks : List T)
    (hne : ks ≠ []) :
    (flushJobs (loadAll (initState T) ks)).batch =
      some { resolvers := List.range (dedupFirstSeen ks).length
             rejectors := List.range (dedupFirstSeen ks).length
             keys := dedupFirstSeen ks } := by
  obtain ⟨h1, h2, h3, _, _, _⟩ := loadAll_initState_spec (T := T) ks
  have hd : dedupFirstSeen ks ≠ [] := dedupFirstSeen_ne_nil ks hne
  have hlen : ¬ ((loadAll (initState T) ks).data.length = 0) := by
    rw [h1]; simpa [List.length_eq_zero] using hd
  simp [flushJobs, hlen, h1, h2, h3, hd]

theorem settleOk_eq {T R E : Type} (b : Batch T) (vals : List R)
    (ps : PromiseStore R E) :
    settleOk b vals ps =
      if (runThenHandler b.resolvers vals ps).2 = true then
        { store := runCatchHandler b.rejectors JsError.typeErrorUndefinedCall
            (runThenHandler b.resolvers vals ps).1
          uncaught := none }
      else { store := (runThenHandler b.resolvers vals ps).1, uncaught := none } := rfl

theorem runOps_invariant {T : Type} [DecidableEq T] (ops : List (Op T)) :
    ∀ sys sys' : Sys T,
      sys.pendingFlushes = (if sys.st.isFlushPending then 1 else 0) →
      runOps sys ops = some sys' →
      sys'.pendingFlushes = (if sys'.st.isFlushPending then 1 else 0) := by
  induction ops with
  | nil =>
      intro sys sys' hinv h
      cases h
      exact hinv
  | cons op rest ih =>
      intro sys sys' hinv h
      cases op with
      | load k =>
          simp only [runOps] at h
          refine ih _ sys' ?_ h
          rcases hm : mapGet sys.st.cachePromises k with _ | p
          · rcases hflag : sys.st.isFlushPending with _ | _
            · rw [hflag] at hinv
              simp [load, hm, hflag, hinv]
            · rw [hflag] at hinv
              simp [load, hm, hflag, hinv]
          · simp [load, hm, hinv]
      | flush =>
          simp only [runOps] at h
          by_cases hz : sys.pendingFlushes = 0
          · rw [if_pos hz] at h; cases h
          · rw [if_neg hz] at h
            refine ih _ sys' ?_ h
            have hflag : sys.st.isFlushPending = true := by
              rcases hf : sys.st.isFlushPending with _ | _
              · rw [hf] at hinv; exact absurd hinv hz
              · rfl
            rw [hflag] at hinv
            simp [flushJobs_clears_flag, hinv]

/-! Claims settled against the embedding. -/

/-- Claim C1: for every sequence of load calls issued within one synchronous
execution segment on one instance, the loader function is invoked exactly
once for that batch, and the key list it receives contains each distinct
key exactly once, in the order of the first load call of each key.  The
scheduled flush performs exactly one invokeLoader event, whose key list is
the deduplicated key list: it has no duplicates, holds exactly the loaded
keys, and lists them in strictly increasing order of first occurrence. -/
theorem batching_invokes_loader_once_dedup {T : Type} [DecidableEq T]
    (ks : List T) (hne : ks ≠ []) :
    loaderCalls (flushJobs (loadAll (initState T) ks)) = [dedupFirstSeen ks] ∧
    (dedupFirstSeen ks).Nodup ∧
    (∀ a, a ∈ dedupFirstSeen ks ↔ a ∈ ks) ∧
    List.Pairwise (fun a b => firstIdx ks a < firstIdx ks b) (dedupFirstSeen ks) := by
  obtain ⟨h1, _, _, _, _, _⟩ := loadAll_initState_spec (T := T) ks
  have hd : dedupFirstSeen ks ≠ [] := dedupFirstSeen_ne_nil ks hne
  have hlen : ¬ ((loadAll (initState T) ks).data.length = 0) := by
    rw [h1]; simpa [List.length_eq_zero] using hd
  refine ⟨?_, nodup_dedupFirstSeen ks, mem_dedupFirstSeen ks,
    pairwise_firstIdx_dedupFirstSeen ks⟩
  simp [loaderCalls, flushJobs, hlen, h1, hd]

/-- Witness for claim C1 at the key sequence one, one, two. -/
theorem batching_invokes_loader_once_dedup_witness :
    ([1, 1, 2] : List ℕ) ≠ [] ∧
    (loaderCalls (flushJobs (loadAll (initState ℕ) [1, 1, 2])) =
        [dedupFirstSeen [1, 1, 2]] ∧
      (dedupFirstSeen [1, 1, 2]).Nodup ∧
      (∀ a, a ∈ dedupFirstSeen [1, 1, 2] ↔ a ∈ ([1, 1, 2] : List ℕ)) ∧
      List.Pairwise (fun a b => firstIdx [1, 1, 2] a < firstIdx [1, 1, 2] b)
        (dedupFirstSeen [1, 1, 2])) :=
  ⟨by decide, batching_invokes_loader_once_dedup [1, 1, 2] (by decide)⟩

/-- Claim C2: two load calls with the same key within the same batch, with
any other load calls between them and no flush between them, return the
identical promise instance, and the second call leaves the state unchanged,
in particular adding no entry to the pending key list and scheduling
nothing. -/
theorem same_key_same_promise {T : Type} [DecidableEq T] (s : DLState T)
    (k : T) (ms : List T) :
    (load (loadAll (load s k).state ms) k).promise = (load s k).promise ∧
    (load (loadAll (load s k).state ms) k).state = loadAll (load s k).state ms ∧
    (load (loadAll (load s k).state ms) k).scheduledFlush = false := by
  have hc : mapGet (loadAll (load s k).state ms).cachePromises k =
      some (load s k).promise :=
    loadAll_preserves_cached ms (load s k).state k (load s k).promise
      (load_self_cached s k)
  rw [load_cached_eq _ _ _ hc]
  exact ⟨rfl, rfl, rfl⟩

/-- Claim C3: in every non-empty flush the whole coordinator state is reset
to empty and false strictly before the loader function is invoked (the
resetState event precedes the invokeLoader event), so any load call on the
post-flush state, even before the in-flight fetch settles, starts a
brand-new batch: it allocates a fresh promise, its key list is exactly the
new key, and it schedules a new flush. -/
theorem flush_resets_state_before_invoking {T : Type} [DecidableEq T]
    (s : DLState T) (h : s.data ≠ []) :
    (flushJobs s).events =
      [FlushEvent.resetState, FlushEvent.invokeLoader s.data] ∧
    (flushJobs s).state.cachePromises = [] ∧
    (flushJobs s).state.data = [] ∧
    (flushJobs s).state.resolveArr = [] ∧
    (flushJobs s).state.rejectArr = [] ∧
    (flushJobs s).state.isFlushPending = false ∧
    ∀ k, (load (flushJobs s).state k).scheduledFlush = true ∧
      (load (flushJobs s).state k).state.data = [k] ∧
      (load (flushJobs s).state k).promise = s.nextId := by
  have hlen : ¬ (s.data.length = 0) := by simpa [List.length_eq_zero] using h
  refine ⟨?_, ?_, ?_, ?_, ?_, ?_, fun k => ⟨?_, ?_, ?_⟩⟩ <;>
    simp [flushJobs, hlen, load, mapGet]

/-- Witness for claim C3 at a one-key batch state. -/
theorem flush_resets_state_before_invoking_witness :
    (DLState.mk true [0] [0] [7] [(7, 0)] 1 : DLState ℕ).data ≠ [] ∧
    ((flushJobs (DLState.mk true [0] [0] [7] [(7, 0)] 1 : DLState ℕ)).events =
      [FlushEvent.resetState,
        FlushEvent.invokeLoader (DLState.mk true [0] [0] [7] [(7, 0)] 1 : DLState ℕ).data] ∧
    (flushJobs (DLState.mk true [0] [0] [7] [(7, 0)] 1 : DLState ℕ)).state.cachePromises = [] ∧
    (flushJobs (DLState.mk true [0] [0] [7] [(7, 0)] 1 : DLState ℕ)).state.data = [] ∧
    (flushJobs (DLState.mk true [0] [0] [7] [(7, 0)] 1 : DLState ℕ)).state.resolveArr = [] ∧
    (flushJobs (DLState.mk true [0] [0] [7] [(7, 0)] 1 : DLState ℕ)).state.rejectArr = [] ∧
    (flushJobs (DLState.mk true [0] [0] [7] [(7, 0)] 1 : DLState ℕ)).state.isFlushPending = false ∧
    ∀ k, (load (flushJobs (DLState.mk true [0] [0] [7] [(7, 0)] 1 : DLState ℕ)).state k).scheduledFlush = true ∧
      (load (flushJobs (DLState.mk true [0] [0] [7] [(7, 0)] 1 : DLState ℕ)).state k).state.data = [k] ∧
      (load (flushJobs (DLState.mk true [0] [0] [7] [(7, 0)] 1 : DLState ℕ)).state k).promise =
        (DLState.mk true [0] [0] [7] [(7, 0)] 1 : DLState ℕ).nextId) :=
  ⟨by decide, flush_resets_state_before_invoking _ (by decide)⟩

/-- Claim C6 as stated is false on the code: after two load calls with the
same key the callback lists hold one pair, not two, because the cached path
returns before pushing any callback.  Concretely, after loading key one
twice the resolver list has length one, not the call count two. -/
theorem callback_pairs_per_request_counterexample :
    (loadAll (initState ℕ) [1, 1]).resolveArr.length = 1 ∧
    (loadAll (initState ℕ) [1, 1]).rejectArr.length = 1 ∧
    ¬ ((loadAll (initState ℕ) [1, 1]).resolveArr.length = 2) ∧
    ¬ ((loadAll (initState ℕ) [1, 1]).rejectArr.length = 2) := by decide

/-- Claim C6, amended: within one batch the callback lists hold one
fulfill or fail callback per distinct key, pushed by the first load call of
that key, parallel to the deduplicated pending key list: after any sequence
of load calls the resolver and rejector lists are the promise ids zero up
to the number of distinct keys, and their length equals the length of the
pending key list, which is the deduplicated key sequence. -/
theorem callback_pairs_per_distinct_key {T : Type} [DecidableEq T] (ks : List T) :
    (loadAll (initState T) ks).resolveArr =
      List.range (dedupFirstSeen ks).length ∧
    (loadAll (initState T) ks).rejectArr =
      List.range (dedupFirstSeen ks).length ∧
    (loadAll (initState T) ks).data = dedupFirstSeen ks ∧
    (loadAll (initState T) ks).resolveArr.length =
      (loadAll (initState T) ks).data.length ∧
    (loadAll (initState T) ks).rejectArr.length =
      (loadAll (initState T) ks).data.length := by
  obtain ⟨h1, h2, h3, _, _, _⟩ := loadAll_initState_spec (T := T) ks
  exact ⟨h2, h3, h1, by rw [h1, h2]; simp, by rw [h1, h3]; simp⟩

/-- Claim C8: running flushJobs with an empty pending key list clears only
the flush-scheduled flag and returns: no event is performed, no loader
invocation happens, no snapshot is taken, and every other field is left
exactly as it was. -/
theorem flush_empty_is_silent_noop {T : Type} (s : DLState T) (h : s.data = []) :
    flushJobs s =
      { state := { s with isFlushPending := false }, events := [], batch := none } := by
  simp [flushJobs, h]

/-- Witness for claim C8 at a state with an empty key list but a non-empty
cache, showing only the flag changes. -/
theorem flush_empty_is_silent_noop_witness :
    (DLState.mk true [] [] [] [(5, 0)] 3 : DLState ℕ).data = [] ∧
    flushJobs (DLState.mk true [] [] [] [(5, 0)] 3 : DLState ℕ) =
      { state := { (DLState.mk true [] [] [] [(5, 0)] 3 : DLState ℕ) with
          isFlushPending := false }
        events := [], batch := none } :=
  ⟨rfl, flush_empty_is_silent_noop _ rfl⟩

/-- Claim C10: the loader function is never invoked with an empty key list:
every invokeLoader event performed by flushJobs, from any state whatsoever,
carries the snapshotted pending key list, and that list is non-empty, since
the empty-list guard returns before the fetch. -/
theorem loader_never_invoked_with_empty_list {T : Type} (s : DLState T)
    (ks : List T) (h : FlushEvent.invokeLoader ks ∈ (flushJobs s).events) :
    ks ≠ [] ∧ ks = s.data := by
  by_cases hlen : s.data.length = 0
  · simp [flushJobs, hlen] at h
  · have hev : (flushJobs s).events =
        [FlushEvent.resetState, FlushEvent.invokeLoader s.data] := by
      simp [flushJobs, hlen]
    rw [hev] at h
    rcases List.mem_cons.mp h with h1 | h1
    · cases h1
    · have h2 : FlushEvent.invokeLoader ks = FlushEvent.invokeLoader s.data :=
        List.mem_singleton.mp h1
      have h3 : ks = s.data := by injection h2
      refine ⟨?_, h3⟩
      rw [h3]
      simpa [List.length_eq_zero] using hlen

/-- Equation for the success path with the snapshot fields spelled out. -/
theorem settleOk_mk_eq {T R E : Type} (res rej : List Nat) (keys : List T)
    (vals : List R) (ps : PromiseStore R E) :
    settleOk (Batch.mk res rej keys) vals ps =
      if (runThenHandler res vals ps).2 = true then
        { store := runCatchHandler rej JsError.typeErrorUndefinedCall
            (runThenHandler res vals ps).1
          uncaught := none }
      else { store := (runThenHandler res vals ps).1, uncaught := none } := rfl

/-- Claim C4: when the loader succeeds with a result sequence whose length
equals the deduplicated key list length, the promise returned by each load
call fulfills with the result value at the position its key occupied in the
deduplicated batch; this holds whether the loader returned the array
synchronously or through a fulfilled promise. -/
theorem success_resolves_each_key_positionally {T R E : Type} [DecidableEq T]
    (ks : List T) (vals : List R) (hne : ks ≠ [])
    (hlen : vals.length = (dedupFirstSeen ks).length) :
    ∃ b : Batch T,
      (flushJobs (loadAll (initState T) ks)).batch = some b ∧
      b.keys = dedupFirstSeen ks ∧
      ∀ j, j < ks.length →
        ∃ (k : T) (p : Nat) (v : R),
          ks.get? j = some k ∧
          (runBatch (initState T) ks).1.get? j = some p ∧
          p = firstIdx (dedupFirstSeen ks) k ∧
          vals.get? p = some v ∧
          (settleBatch b (LoaderBehavior.retSync vals) (emptyStore R E)).store p =
            PStatus.fulfilled v ∧
          (settleBatch b (LoaderBehavior.retAsyncOk vals) (emptyStore R E)).store p =
            PStatus.fulfilled v := by
  refine ⟨_, flushJobs_batch_initState ks hne, rfl, ?_⟩
  intro j hj
  obtain ⟨k, hk⟩ : ∃ k, ks.get? j = some k := ⟨ks.get ⟨j, hj⟩, List.get?_eq_get hj⟩
  have hkmem : k ∈ ks := List.get?_mem hk
  have hkd : k ∈ dedupFirstSeen ks := (mem_dedupFirstSeen ks k).mpr hkmem
  have hidx : firstIdx (dedupFirstSeen ks) k < (dedupFirstSeen ks).length :=
    firstIdx_lt_length _ _ hkd
  have hpj : (runBatch (initState T) ks).1.get? j =
      some (firstIdx (dedupFirstSeen ks) k) := by
    rw [runBatch_initState_promises, List.get?_map, hk]
    rfl
  have hvlt : firstIdx (dedupFirstSeen ks) k < vals.length := by
    rw [hlen]; exact hidx
  obtain ⟨v, hv⟩ : ∃ v, vals.get? (firstIdx (dedupFirstSeen ks) k) = some v :=
    ⟨vals.get ⟨_, hvlt⟩, List.get?_eq_get hvlt⟩
  have hsnd : (runThenHandler (List.range (dedupFirstSeen ks).length) vals
      (emptyStore R E)).2 = false := by
    rw [runThenHandler_snd]
    simp [hlen]
  have hcond : ¬ ((runThenHandler (List.range (dedupFirstSeen ks).length) vals
      (emptyStore R E)).2 = true) := by
    rw [hsnd]; simp
  have hful : (runThenHandler (List.range (dedupFirstSeen ks).length) vals
      (emptyStore R E)).1 (firstIdx (dedupFirstSeen ks) k) = PStatus.fulfilled v := by
    refine runThenHandler_fulfilled vals _ _ (List.nodup_range _) (fun q _ => rfl)
      (firstIdx (dedupFirstSeen ks) k) (firstIdx (dedupFirstSeen ks) k) v ?_ hv
    simp [List.get?_range, hidx]
  refine ⟨k, firstIdx (dedupFirstSeen ks) k, v, hk, hpj, rfl, hv, ?_, ?_⟩ <;>
  · simp only [settleBatch]
    rw [settleOk_mk_eq, if_neg hcond]
    exact hful

/-- Witness for claim C4 at keys one, one, two and results ten, twenty. -/
theorem success_resolves_each_key_positionally_witness :
    ([1, 1, 2] : List ℕ) ≠ [] ∧
    ([10, 20] : List ℕ).length = (dedupFirstSeen [1, 1, 2]).length ∧
    (∃ b : Batch ℕ,
      (flushJobs (loadAll (initState ℕ) [1, 1, 2])).batch = some b ∧
      b.keys = dedupFirstSeen [1, 1, 2] ∧
      ∀ j, j < ([1, 1, 2] : List ℕ).length →
        ∃ (k p v : ℕ),
          ([1, 1, 2] : List ℕ).get? j = some k ∧
          (runBatch (initState ℕ) [1, 1, 2]).1.get? j = some p ∧
          p = firstIdx (dedupFirstSeen [1, 1, 2]) k ∧
          ([10, 20] : List ℕ).get? p = some v ∧
          (settleBatch b (LoaderBehavior.retSync [10, 20]) (emptyStore ℕ ℕ)).store p =
            PStatus.fulfilled v ∧
          (settleBatch b (LoaderBehavior.retAsyncOk [10, 20]) (emptyStore ℕ ℕ)).store p =
            PStatus.fulfilled v) :=
  ⟨by decide, by decide,
    success_resolves_each_key_positionally [1, 1, 2] [10, 20] (by decide) (by decide)⟩

/-- Claim C5 as stated is false on the code: a loader that throws
synchronously is a failure of the loader function, yet no promise of the
batch is rejected, because the throw happens while evaluating the argument
of Promise.resolve, before any handler is attached; the error escapes
flushJobs and every snapshotted promise stays pending forever.  Concretely,
for the batch of keys one and two and a loader throwing the value seven,
the promise of key one stays pending and is not rejected with that
failure. -/
theorem sync_throw_leaves_promises_pending_counterexample :
    (flushJobs (loadAll (initState ℕ) [1, 2])).batch =
      some (Batch.mk [0, 1] [0, 1] [1, 2]) ∧
    (settleBatch (Batch.mk [0, 1] [0, 1] [1, 2])
        (LoaderBehavior.throwSync (7 : ℕ)) (emptyStore ℕ ℕ)).store 0 =
      PStatus.pending ∧
    ¬ ((settleBatch (Batch.mk [0, 1] [0, 1] [1, 2])
        (LoaderBehavior.throwSync (7 : ℕ)) (emptyStore ℕ ℕ)).store 0 =
      PStatus.rejected (JsError.loaderErr 7)) ∧
    (settleBatch (Batch.mk [0, 1] [0, 1] [1, 2])
        (LoaderBehavior.throwSync (7 : ℕ)) (emptyStore ℕ ℕ)).uncaught = some 7 := by
  refine ⟨by decide, rfl, ?_, rfl⟩
  intro hc
  cases hc

/-- Claim C5, amended: when the loader fails by returning a rejected
promise (which includes an async loader function that throws), every
distinct-key promise in the snapshot of that batch is rejected with that
same failure value, with no per-key discrimination; a synchronous throw
from a non-async loader instead escapes flushJobs uncaught and settles
nothing, leaving every promise of the snapshot pending. -/
theorem rejected_loader_rejects_all_promises {T R E : Type} [DecidableEq T]
    (ks : List T) (e : E) (hne : ks ≠ []) :
    ∃ b : Batch T,
      (flushJobs (loadAll (initState T) ks)).batch = some b ∧
      (∀ p ∈ b.rejectors,
        (settleBatch b (LoaderBehavior.retAsyncErr e) (emptyStore R E)).store p =
          PStatus.rejected (JsError.loaderErr e)) ∧
      (∀ j, j < ks.length →
        ∃ p, (runBatch (initState T) ks).1.get? j = some p ∧
          (settleBatch b (LoaderBehavior.retAsyncErr e) (emptyStore R E)).store p =
            PStatus.rejected (JsError.loaderErr e)) ∧
      (settleBatch b (LoaderBehavior.throwSync e) (emptyStore R E)).uncaught = some e ∧
      (∀ p, (settleBatch b (LoaderBehavior.throwSync e) (emptyStore R E)).store p =
        PStatus.pending) := by
  refine ⟨_, flushJobs_batch_initState ks hne, ?_, ?_, rfl, fun p => rfl⟩
  · intro p hp
    simp only [settleBatch]
    exact runCatchHandler_rejects _ _ _ (List.nodup_range _) (fun q _ => rfl) p hp
  · intro j hj
    obtain ⟨k, hk⟩ : ∃ k, ks.get? j = some k := ⟨ks.get ⟨j, hj⟩, List.get?_eq_get hj⟩
    have hkmem : k ∈ ks := List.get?_mem hk
    have hkd : k ∈ dedupFirstSeen ks := (mem_dedupFirstSeen ks k).mpr hkmem
    have hidx : firstIdx (dedupFirstSeen ks) k < (dedupFirstSeen ks).length :=
      firstIdx_lt_length _ _ hkd
    have hpj : (runBatch (initState T) ks).1.get? j =
        some (firstIdx (dedupFirstSeen ks) k) := by
      rw [runBatch_initState_promises, List.get?_map, hk]
      rfl
    refine ⟨firstIdx (dedupFirstSeen ks) k, hpj, ?_⟩
    simp only [settleBatch]
    refine runCatchHandler_rejects _ _ _ (List.nodup_range _) (fun q _ => rfl) _ ?_
    exact List.mem_range.mpr hidx

/-- Witness for the amended claim C5 at keys one and two and failure
value seven. -/
theorem rejected_loader_rejects_all_promises_witness :
    ([1, 2] : List ℕ) ≠ [] ∧
    (∃ b : Batch ℕ,
      (flushJobs (loadAll (initState ℕ) [1, 2])).batch = some b ∧
      (∀ p ∈ b.rejectors,
        (settleBatch b (LoaderBehavior.retAsyncErr (7 : ℕ)) (emptyStore ℕ ℕ)).store p =
          PStatus.rejected (JsError.loaderErr 7)) ∧
      (∀ j, j < ([1, 2] : List ℕ).length →
        ∃ p, (runBatch (initState ℕ) [1, 2]).1.get? j = some p ∧
          (settleBatch b (LoaderBehavior.retAsyncErr (7 : ℕ)) (emptyStore ℕ ℕ)).store p =
            PStatus.rejected (JsError.loaderErr 7)) ∧
      (settleBatch b (LoaderBehavior.throwSync (7 : ℕ)) (emptyStore ℕ ℕ)).uncaught =
        some 7 ∧
      (∀ p, (settleBatch b (LoaderBehavior.throwSync (7 : ℕ)) (emptyStore ℕ ℕ)).store p =
        PStatus.pending)) :=
  ⟨by decide, rejected_loader_rejects_all_promises [1, 2] 7 (by decide)⟩

/-- Claim C7: on a length mismatch between the loader result and the
snapshotted key list, the shorter case leaves every promise at a position
beyond the result length unsettled by the success path (still pending, and
nothing escapes uncaught), while the longer case drops the extra results
with no effect on any promise: every snapshotted promise still fulfills
with its positional value (the TypeError raised by the overrun is caught
and its rejection attempts hit already-settled promises). -/
theorem length_mismatch_positional_fallout {T R E : Type} [DecidableEq T]
    (ks : List T) (vals : List R) (hne : ks ≠ []) :
    ∃ b : Batch T,
      (flushJobs (loadAll (initState T) ks)).batch = some b ∧
      b.resolvers = List.range (dedupFirstSeen ks).length ∧
      b.keys = dedupFirstSeen ks ∧
      (vals.length < (dedupFirstSeen ks).length →
        (settleBatch b (LoaderBehavior.retAsyncOk vals) (emptyStore R E)).uncaught =
          none ∧
        ∀ i, vals.length ≤ i → i < (dedupFirstSeen ks).length →
          (settleBatch b (LoaderBehavior.retAsyncOk vals) (emptyStore R E)).store i =
            PStatus.pending) ∧
      ((dedupFirstSeen ks).length < vals.length →
        (settleBatch b (LoaderBehavior.retAsyncOk vals) (emptyStore R E)).uncaught =
          none ∧
        ∀ i, i < (dedupFirstSeen ks).length →
          ∃ v, vals.get? i = some v ∧
            (settleBatch b (LoaderBehavior.retAsyncOk vals) (emptyStore R E)).store i =
              PStatus.fulfilled v) := by
  refine ⟨_, flushJobs_batch_initState ks hne, rfl, rfl, ?_, ?_⟩
  · intro hshort
    have hsnd : (runThenHandler (List.range (dedupFirstSeen ks).length) vals
        (emptyStore R E)).2 = false := by
      rw [runThenHandler_snd]
      simp
      omega
    have hcond : ¬ ((runThenHandler (List.range (dedupFirstSeen ks).length) vals
        (emptyStore R E)).2 = true) := by
      rw [hsnd]; simp
    constructor
    · simp only [settleBatch]
      rw [settleOk_mk_eq, if_neg hcond]
    · intro i hge hlt
      simp only [settleBatch]
      rw [settleOk_mk_eq, if_neg hcond]
      have hst := runThenHandler_stalled vals (List.range (dedupFirstSeen ks).length)
        (emptyStore R E) (List.nodup_range _) i i hge (by simp [List.get?_range, hlt])
      exact hst
  · intro hlong
    have hsnd : (runThenHandler (List.range (dedupFirstSeen ks).length) vals
        (emptyStore R E)).2 = true := by
      rw [runThenHandler_snd]
      simp
      omega
    constructor
    · simp only [settleBatch]
      rw [settleOk_mk_eq, if_pos hsnd]
    · intro i hlt
      have hvlt : i < vals.length := lt_trans hlt hlong
      obtain ⟨v, hv⟩ : ∃ v, vals.get? i = some v :=
        ⟨vals.get ⟨_, hvlt⟩, List.get?_eq_get hvlt⟩
      have hful : (runThenHandler (List.range (dedupFirstSeen ks).length) vals
          (emptyStore R E)).1 i = PStatus.fulfilled v := by
        refine runThenHandler_fulfilled vals _ _ (List.nodup_range _)
          (fun q _ => rfl) i i v ?_ hv
        simp [List.get?_range, hlt]
      refine ⟨v, hv, ?_⟩
      simp only [settleBatch]
      rw [settleOk_mk_eq, if_pos hsnd]
      show runCatchHandler _ _ _ i = _
      rw [runCatchHandler_preserve _ _ _ _ (by rw [hful]; intro hc; cases hc), hful]

/-- Witness for claim C7 at keys one and two and a one-element result. -/
theorem length_mismatch_positional_fallout_witness :
    ([1, 2] : List ℕ) ≠ [] ∧
    (∃ b : Batch ℕ,
      (flushJobs (loadAll (initState ℕ) [1, 2])).batch = some b ∧
      b.resolvers = List.range (dedupFirstSeen [1, 2]).length ∧
      b.keys = dedupFirstSeen [1, 2] ∧
      (([10] : List ℕ).length < (dedupFirstSeen [1, 2]).length →
        (settleBatch b (LoaderBehavior.retAsyncOk [10]) (emptyStore ℕ ℕ)).uncaught =
          none ∧
        ∀ i, ([10] : List ℕ).length ≤ i → i < (dedupFirstSeen [1, 2]).length →
          (settleBatch b (LoaderBehavior.retAsyncOk [10]) (emptyStore ℕ ℕ)).store i =
            PStatus.pending) ∧
      ((dedupFirstSeen [1, 2]).length < ([10] : List ℕ).length →
        (settleBatch b (LoaderBehavior.retAsyncOk [10]) (emptyStore ℕ ℕ)).uncaught =
          none ∧
        ∀ i, i < (dedupFirstSeen [1, 2]).length →
          ∃ v, ([10] : List ℕ).get? i = some v ∧
            (settleBatch b (LoaderBehavior.retAsyncOk [10]) (emptyStore ℕ ℕ)).store i =
              PStatus.fulfilled v)) :=
  ⟨by decide, length_mismatch_positional_fallout [1, 2] [10] (by decide)⟩

/-- Claim C9: at most one flush is ever queued per instance: along every
valid operation trace from a fresh instance the number of queued flushJobs
callbacks equals one when the flush-scheduled flag is set and zero when it
is not, hence never exceeds one; a load call queues a flush only when the
flag is down, and any load call made while the flag is up queues nothing. -/
theorem at_most_one_pending_flush {T : Type} [DecidableEq T] (ops : List (Op T))
    (sys : Sys T) (h : runOps (initSys T) ops = some sys) :
    sys.pendingFlushes = (if sys.st.isFlushPending then 1 else 0) ∧
    sys.pendingFlushes ≤ 1 ∧
    (∀ k, (load sys.st k).scheduledFlush = true → sys.pendingFlushes = 0) ∧
    (∀ k, sys.st.isFlushPending = true → (load sys.st k).scheduledFlush = false) := by
  have hinv := runOps_invariant ops (initSys T) sys (by simp [initSys, initState]) h
  refine ⟨hinv, ?_, ?_, ?_⟩
  · rw [hinv]; split <;> omega
  · intro k hk
    rcases hm : mapGet sys.st.cachePromises k with _ | p
    · simp only [load, hm] at hk
      simp only [Bool.not_eq_true'] at hk
      rw [hinv, hk]
      simp
    · simp [load, hm] at hk
  · intro k hflag
    rcases hm : mapGet sys.st.cachePromises k with _ | p
    · simp [load, hm, hflag]
    · simp [load, hm]

/-- Witness for claim C9 at the trace load one, load one, load two,
flush. -/
theorem at_most_one_pending_flush_witness :
    runOps (initSys ℕ) [Op.load 1, Op.load 1, Op.load 2, Op.flush] =
      some { st := DLState.mk false [] [] [] [] 2, pendingFlushes := 0 } ∧
    (({ st := DLState.mk false [] [] [] [] 2, pendingFlushes := 0 } : Sys ℕ).pendingFlushes =
      (if ({ st := DLState.mk false [] [] [] [] 2, pendingFlushes := 0 } : Sys ℕ).st.isFlushPending
        then 1 else 0) ∧
    ({ st := DLState.mk false [] [] [] [] 2, pendingFlushes := 0 } : Sys ℕ).pendingFlushes ≤ 1 ∧
    (∀ k, (load ({ st := DLState.mk false [] [] [] [] 2, pendingFlushes := 0 } : Sys ℕ).st k).scheduledFlush = true →
      ({ st := DLState.mk false [] [] [] [] 2, pendingFlushes := 0 } : Sys ℕ).pendingFlushes = 0) ∧
    (∀ k, ({ st := DLState.mk false [] [] [] [] 2, pendingFlushes := 0 } : Sys ℕ).st.isFlushPending = true →
      (load ({ st := DLState.mk false [] [] [] [] 2, pendingFlushes := 0 } : Sys ℕ).st k).scheduledFlush = false)) :=
  ⟨by decide,
    at_most_one_pending_flush [Op.load 1, Op.load 1, Op.load 2, Op.flush] _ (by decide)⟩

/-- Witness for claim C10 at a one-key batch state. -/
theorem loader_never_invoked_with_empty_list_witness :
    FlushEvent.invokeLoader [1] ∈
      (flushJobs (DLState.mk true [0] [0] [1] [(1, 0)] 1 : DLState ℕ)).events ∧
    (([1] : List ℕ) ≠ [] ∧
      ([1] : List ℕ) = (DLState.mk true [0] [0] [1] [(1, 0)] 1 : DLState ℕ).data) :=
  ⟨by decide, loader_never_invoked_with_empty_list _ _ (by decide)⟩

end Dataloader
